import Mathlib

/-!
Shallow embedding of the core of the libmount repository:
the mountinfo parser (src/mountinfo.rs), the remount planner's flag
lookup and flag merging (src/remount.rs), and the overlay option-string
builder (src/overlay.rs).

Bytes are modelled as natural numbers (values 0..255); byte strings as
lists of naturals.  Rust u8 arithmetic that can wrap is translated with
an explicit mod 2^8; the kernel-facing flag word is a u64 (c_ulong on
64-bit Linux), so integer parsing checks the value against 2^64.
Fallible Rust functions returning Result are translated to Except.
-/

deriving instance DecidableEq for Except

namespace Libmount

/-- A byte of the input buffer (value in 0..255). -/
abbrev Byte := Nat

/-- Bytes of an ASCII string literal, used to write concrete inputs. -/
def str (s : String) : List Byte :=
  s.data.map (fun c => c.toNat)

/-! Linux MS_* mount flag constants, as used by nix MsFlags (values from
linux/fs.h via libc). -/

def MS_RDONLY : Nat := 1
def MS_NOSUID : Nat := 2
def MS_NODEV : Nat := 4
def MS_NOEXEC : Nat := 8
def MS_SYNCHRONOUS : Nat := 16
def MS_REMOUNT : Nat := 32
def MS_MANDLOCK : Nat := 64
def MS_DIRSYNC : Nat := 128
def MS_NOATIME : Nat := 1024
def MS_NODIRATIME : Nat := 2048
def MS_BIND : Nat := 4096
def MS_MOVE : Nat := 8192
def MS_REC : Nat := 16384
def MS_SILENT : Nat := 32768
def MS_POSIXACL : Nat := 65536
def MS_UNBINDABLE : Nat := 131072
def MS_PRIVATE : Nat := 262144
def MS_SLAVE : Nat := 524288
def MS_SHARED : Nat := 1048576
def MS_RELATIME : Nat := 2097152
def MS_KERNMOUNT : Nat := 4194304
def MS_I_VERSION : Nat := 8388608
def MS_STRICTATIME : Nat := 16777216
def MS_ACTIVE : Nat := 1073741824
def MS_NOUSER : Nat := 2147483648
def MS_MGC_VAL : Nat := 3236757504
def MS_MGC_MSK : Nat := 4294901760

/-- Union of every flag constant defined on the MsFlags bitflags type
(nix::mount); this is the value of MsFlags::all(), which the bitflags
complement operator masks with. -/
def msflags_all : Nat :=
  MS_RDONLY ||| MS_NOSUID ||| MS_NODEV ||| MS_NOEXEC ||| MS_SYNCHRONOUS |||
  MS_REMOUNT ||| MS_MANDLOCK ||| MS_DIRSYNC ||| MS_NOATIME ||| MS_NODIRATIME |||
  MS_BIND ||| MS_MOVE ||| MS_REC ||| MS_SILENT ||| MS_POSIXACL |||
  MS_UNBINDABLE ||| MS_PRIVATE ||| MS_SLAVE ||| MS_SHARED ||| MS_RELATIME |||
  MS_KERNMOUNT ||| MS_I_VERSION ||| MS_STRICTATIME ||| MS_ACTIVE |||
  MS_NOUSER ||| MS_MGC_VAL ||| MS_MGC_MSK

/-! The octal escape codec of src/mountinfo.rs. -/

/-- Rust is_oct: c is an ASCII octal digit (b'0' ..= b'7'). -/
def is_oct (c : Nat) : Bool :=
  48 ≤ c && c ≤ 55

/-- Rust is_octal_encoding: the byte string starts with a backslash
followed by three octal digits (length at least 4). -/
def is_octal_encoding : List Byte → Bool
  | b :: d1 :: d2 :: d3 :: _ => b == 92 && is_oct d1 && is_oct d2 && is_oct d3
  | _ => false

/-- Rust parse_octal on the three digit bytes following the backslash:
u8 arithmetic ((v0 & 7) << 6) + ((v1 & 7) << 3) + (v2 & 7); the first
shift discards the bits above 2^8 exactly as the Rust u8 shift does. -/
def parse_octal (d1 d2 d3 : Nat) : Nat :=
  ((((d1 &&& 7) <<< 6) % 256) + ((d2 &&& 7) <<< 3) + (d3 &&& 7)) % 256

/-- Rust unescape_octals: scan left to right; whenever the remaining
bytes start with an octal encoding, emit the decoded byte and skip four
input bytes, otherwise copy one byte.  (The Rust function first scans
for the position of the first escape in order to borrow when there is
none; that phase does not change the produced bytes.) -/
def unescape_octals : List Byte → List Byte
  | b :: d1 :: d2 :: d3 :: rest =>
    if is_octal_encoding (b :: d1 :: d2 :: d3 :: rest) then
      parse_octal d1 d2 d3 :: unescape_octals rest
    else
      b :: unescape_octals (d1 :: d2 :: d3 :: rest)
  | c :: cs => c :: unescape_octals cs
  | [] => []

/-! Low-level field helpers of src/mountinfo.rs. -/

/-- Rust rstrip_cr: drop one trailing carriage return if present. -/
def rstrip_cr (row : List Byte) : List Byte :=
  match row.getLast? with
  | some 13 => row.dropLast
  | _ => row

/-- The for-loop of Rust is_comment_line, entered after the emptiness
check: skip space and tab bytes; the first other byte decides (a number
sign is a comment, anything else is not); when the loop exhausts the
row without deciding (a non-empty all-whitespace row) the function
falls through to return false. -/
def is_comment_line_loop : List Byte → Bool
  | [] => false
  | c :: cs =>
    if c == 32 || c == 9 then is_comment_line_loop cs
    else c == 35

/-- Rust is_comment_line: an empty row is a comment; otherwise the
first byte that is not a space or a tab must be a number sign.  A
non-empty row consisting only of spaces and tabs is NOT a comment: the
program goes on to parse it and reports a ParseError. -/
def is_comment_line (row : List Byte) : Bool :=
  if row = [] then true
  else is_comment_line_loop row

/-- Rust lstrip_whitespaces (strips leading space bytes only). -/
def lstrip_whitespaces : List Byte → List Byte
  | [] => []
  | c :: cs => if c = 32 then lstrip_whitespaces cs else c :: cs

/-- Rust rstrip_whitespaces (strips trailing space bytes only). -/
def rstrip_whitespaces (v : List Byte) : List Byte :=
  ((v.reverse.dropWhile (fun c => c == 32))).reverse

/-- Rust split_by: split at the first occurrence of needle; when the
needle does not occur (in particular when it is longer than v) the
whole input is the field and the remainder is empty. -/
def split_by : List Byte → List Byte → List Byte × List Byte
  | v, needle =>
    if needle.isPrefixOf v then ([], v.drop needle.length)
    else
      match v with
      | [] => ([], [])
      | c :: cs =>
        let p := split_by cs needle
        (c :: p.1, p.2)

/-- Rust parse_field: error on empty input, otherwise strip leading
spaces and split at the delimiter. -/
def parse_field (data delimit : List Byte) :
    Except String (List Byte × List Byte) :=
  if data = [] then .error ("Expected more fields")
  else .ok (split_by (lstrip_whitespaces data) delimit)

/-- Decimal digits to value; none when empty or a non-digit occurs. -/
def digits_to_nat (l : List Byte) (acc : Nat) : Option Nat :=
  match l with
  | [] => some acc
  | c :: cs =>
    if 48 ≤ c ∧ c ≤ 57 then digits_to_nat cs (acc * 10 + (c - 48))
    else none

/-- Model of u64::from_str_radix(s, 10): an optional leading plus sign,
then at least one decimal digit, value below 2^64.  (The preceding
str::from_utf8 check of the Rust code rejects only byte sequences that
this function rejects as well, because every accepted byte is ASCII.) -/
def parse_u64 (field : List Byte) : Option Nat :=
  let digits := match field with
    | 43 :: rest => rest
    | _ => field
  match digits with
  | [] => none
  | _ =>
    match digits_to_nat digits 0 with
    | some v => if v < 2 ^ 64 then some v else none
    | none => none

/-- Rust parse_int: take a space-delimited field and parse it as an
unsigned decimal integer (c_ulong, 64-bit). -/
def parse_int (data : List Byte) : Except String (Nat × List Byte) := do
  let (field, tail) ← parse_field data [32]
  match parse_u64 field with
  | some v => .ok (v, tail)
  | none => .error ("Cannot parse integer")

/-- Rust parse_major_minor: a colon-separated pair of integers. -/
def parse_major_minor (data : List Byte) :
    Except String (Nat × Nat × List Byte) := do
  let (major_field, data) ← parse_field data [58]
  let (minor_field, tail) ← parse_field data [32]
  let (major, _) ← parse_int major_field
  let (minor, _) ← parse_int minor_field
  .ok (major, minor, tail)

/-- Rust parse_os_str: a space-delimited field, octal-unescaped. -/
def parse_os_str (data : List Byte) :
    Except String (List Byte × List Byte) := do
  let (field, tail) ← parse_field data [32]
  .ok (unescape_octals field, tail)

/-- Rust parse_optional: the field delimited by the two-byte needle
dash-space, right-stripped of spaces and octal-unescaped. -/
def parse_optional (data : List Byte) :
    Except String (List Byte × List Byte) := do
  let (field, tail) ← parse_field data [45, 32]
  .ok (unescape_octals (rstrip_whitespaces field), tail)

/-- One parsed mountinfo record (struct MountPoint).  Path-like fields
are byte strings; the Rust Cow/OsStr wrappers carry the same bytes. -/
structure MountPoint where
  mount_id : Nat
  parent_id : Nat
  major : Nat
  minor : Nat
  root : List Byte
  mount_point : List Byte
  mount_options : List Byte
  optional_fields : List Byte
  fstype : List Byte
  mount_source : List Byte
  super_options : List Byte
deriving DecidableEq

/-- Rust parse_mount_point: strip a trailing CR, skip comment lines
(returning none), then parse the eleven fields in order; extra trailing
bytes after super_options are ignored. -/
def parse_mount_point (row0 : List Byte) :
    Except String (Option MountPoint) :=
  let row := rstrip_cr row0
  if is_comment_line row then .ok none
  else do
    let (mount_id, row) ← parse_int row
    let (parent_id, row) ← parse_int row
    let (major, minor, row) ← parse_major_minor row
    let (root, row) ← parse_os_str row
    let (mount_point, row) ← parse_os_str row
    let (mount_options, row) ← parse_os_str row
    let (optional_fields, row) ← parse_optional row
    let (fstype, row) ← parse_os_str row
    let (mount_source, row) ← parse_os_str row
    let (super_options, _) ← parse_os_str row
    .ok (some ⟨mount_id, parent_id, major, minor, root, mount_point,
      mount_options, optional_fields, fstype, mount_source, super_options⟩)

/-- Rust slice split on comma bytes (mount_options.split(b',')). -/
def split_list (sep : Byte) : List Byte → List (List Byte)
  | [] => [[]]
  | c :: cs =>
    if c = sep then [] :: split_list sep cs
    else
      match split_list sep cs with
      | h :: t => (c :: h) :: t
      | [] => [[c]]

/-- The flag bit contributed by one option token (the if/else chain of
MountPoint::get_mount_flags); unrecognized tokens contribute nothing. -/
def flag_of_option (opt : List Byte) : Nat :=
  if opt = str ("ro") then MS_RDONLY
  else if opt = str ("nosuid") then MS_NOSUID
  else if opt = str ("nodev") then MS_NODEV
  else if opt = str ("noexec") then MS_NOEXEC
  else if opt = str ("mand") then MS_MANDLOCK
  else if opt = str ("sync") then MS_SYNCHRONOUS
  else if opt = str ("dirsync") then MS_DIRSYNC
  else if opt = str ("noatime") then MS_NOATIME
  else if opt = str ("nodiratime") then MS_NODIRATIME
  else if opt = str ("relatime") then MS_RELATIME
  else if opt = str ("strictatime") then MS_STRICTATIME
  else 0

/-- Rust MountPoint::get_mount_flags: OR together the bits of every
recognized comma-separated option token. -/
def MountPoint.get_mount_flags (mp : MountPoint) : Nat :=
  (split_list 44 mp.mount_options).foldl
    (fun flags opt => flags ||| flag_of_option opt) 0

/-- Rust MountPoint::get_flags (the numeric bits of get_mount_flags). -/
def MountPoint.get_flags (mp : MountPoint) : Nat :=
  mp.get_mount_flags

/-! The mountinfo iterator (impl Iterator for Parser). -/

/-- Mountinfo file parsing error (struct ParseError): message, row
number, and the text of the offending row.  The Rust struct stores the
row as String::from_utf8_lossy of exactly these bytes; the model keeps
the raw bytes (identical for valid UTF-8 rows). -/
structure ParseError where
  msg : String
  row_num : Nat
  row : List Byte
deriving DecidableEq

/-- The iterator state (struct Parser): remaining buffer, number of
newline-terminated rows consumed so far, and the exhausted flag. -/
structure ParserState where
  data : List Byte
  row_num : Nat
  exhausted : Bool
deriving DecidableEq

/-- One item of the iterator. -/
abbrev ParseItem := Except ParseError MountPoint

/-- Split at the first newline byte: some (row, rest) when the buffer
contains a newline (position found by data.iter().position), none
otherwise. -/
def splitFirstLine : List Byte → Option (List Byte × List Byte)
  | [] => none
  | c :: cs =>
    if c = 10 then some ([], cs)
    else
      match splitFirstLine cs with
      | some (l, r) => some (c :: l, r)
      | none => none

/-- Number of newline bytes in the buffer. -/
def countNL (data : List Byte) : Nat :=
  data.count 10

/-- The loop body of Parser::next.  The fuel argument only bounds the
number of skipped comment rows; next always calls it with fuel equal to
the number of newlines in the buffer, which the loop never exceeds (each
iteration consumes one newline), so the fuel = 0 fallback inside the
comment branch is unreachable there. -/
def nextFuel : Nat → Nat → List Byte → Option ParseItem × ParserState
  | fuel, n, data =>
    match splitFirstLine data with
    | some (row, rest) =>
      match parse_mount_point row with
      | .ok none =>
        match fuel with
        | 0 => (none, ⟨rest, n + 1, true⟩)
        | fuel' + 1 => nextFuel fuel' (n + 1) rest
      | .ok (some v) => (some (.ok v), ⟨rest, n + 1, false⟩)
      | .error e => (some (.error ⟨e, n + 1, row⟩), ⟨rest, n + 1, false⟩)
    | none =>
      match parse_mount_point data with
      | .ok none => (none, ⟨data, n, true⟩)
      | .ok (some v) => (some (.ok v), ⟨data, n, true⟩)
      | .error e => (some (.error ⟨e, n, data⟩), ⟨data, n, true⟩)

/-- Rust Parser::next: none when already exhausted, otherwise run the
line loop.  Note that in the final (newline-less) branch the row number
is NOT incremented before building the error. -/
def Parser.next (s : ParserState) : Option ParseItem × ParserState :=
  if s.exhausted then (none, s)
  else nextFuel (countNL s.data) s.row_num s.data

/-- Rust Parser::new. -/
def Parser.new (data : List Byte) : ParserState :=
  ⟨data, 0, false⟩

/-- Collect the items yielded by repeatedly calling next.  The fuel
bounds the number of items; run below supplies enough fuel for the
whole buffer (every yielded item either consumes at least one newline
or exhausts the parser). -/
def runFuel : Nat → ParserState → List ParseItem
  | 0, _ => []
  | fuel + 1, s =>
    match Parser.next s with
    | (none, _) => []
    | (some r, s') => r :: runFuel fuel s'

/-- The full sequence of items the iterator yields from a state. -/
def Parser.run (s : ParserState) : List ParseItem :=
  runFuel (countNL s.data + 2) s

/-! The remount planner (src/remount.rs). -/

/-- The remount error type (enum RemountError), restricted to the two
variants the snapshot lookup can produce; the Io/Os/Mount variants wrap
live-system failures outside the pure model. -/
inductive RemountError where
  | ParseMountInfo : ParseError → RemountError
  | UnknownMountPoint : List Byte → RemountError
deriving DecidableEq

/-- The loop of get_mountpoint_flags_from: iterate the parsed records,
abort at the first parse error (try!), and keep overwriting the
accumulator with the flags of every record whose mount_point equals the
target path.  The Rust epilogue (if flags.is_some() then Ok(flags) else
Ok(None)) returns the accumulator either way. -/
def locate_flags (path : List Byte) :
    List ParseItem → Option Nat → Except ParseError (Option Nat)
  | [], acc => .ok acc
  | .error e :: _, _ => .error e
  | .ok mp :: rest, acc =>
    locate_flags path rest
      (if mp.mount_point = path then some mp.get_flags else acc)

/-- Rust get_mountpoint_flags_from: scan the whole snapshot buffer for
the target path.  (Rust compares Cow OsStr against Path; on these
absolute byte paths that is byte equality.) -/
def get_mountpoint_flags_from (content path : List Byte) :
    Except ParseError (Option Nat) :=
  locate_flags path (Parser.run (Parser.new content)) none

/-- The snapshot-dependent part of Rust get_mountpoint_flags, after the
target path has been resolved and the snapshot bytes read: ok flags are
truncated to the defined flag bits (MsFlags::from_bits_truncate), an
ok-none lookup becomes UnknownMountPoint carrying the resolved path,
and a parse error is wrapped into RemountError. -/
def get_mountpoint_flags_pure (content path : List Byte) :
    Except RemountError Nat :=
  match get_mountpoint_flags_from content path with
  | .ok (some flags) => .ok (flags &&& msflags_all)
  | .ok none => .error (.UnknownMountPoint path)
  | .error e => .error (.ParseMountInfo e)

/-- The three-valued per-attribute override set (struct MountFlags). -/
structure MountFlags where
  readonly : Option Bool
  nodev : Option Bool
  noexec : Option Bool
  nosuid : Option Bool
  noatime : Option Bool
  nodiratime : Option Bool
  relatime : Option Bool
  strictatime : Option Bool
  dirsync : Option Bool
  synchronous : Option Bool
  mandlock : Option Bool
deriving DecidableEq

/-- Rust Default::default() for MountFlags: every override unset. -/
def MountFlags.default : MountFlags :=
  ⟨none, none, none, none, none, none, none, none, none, none, none⟩

/-- The bitflags complement !flag on MsFlags: complement of the u64
bits, masked with MsFlags::all(). -/
def msflags_not (flag : Nat) : Nat :=
  ((2 ^ 64 - 1) ^^^ flag) &&& msflags_all

/-- Rust apply_flag: set, clear, or keep one flag bit. -/
def apply_flag (flags flag : Nat) : Option Bool → Nat
  | some true => flags ||| flag
  | some false => flags &&& msflags_not flag
  | none => flags

/-- Rust MountFlags::apply_to_flags: merge the three-valued overrides
onto a flag word, attribute by attribute, in source order. -/
def MountFlags.apply_to_flags (s : MountFlags) (flags : Nat) : Nat :=
  let flags := apply_flag flags MS_RDONLY s.readonly
  let flags := apply_flag flags MS_NODEV s.nodev
  let flags := apply_flag flags MS_NOEXEC s.noexec
  let flags := apply_flag flags MS_NOSUID s.nosuid
  let flags := apply_flag flags MS_NOATIME s.noatime
  let flags := apply_flag flags MS_NODIRATIME s.nodiratime
  let flags := apply_flag flags MS_RELATIME s.relatime
  let flags := apply_flag flags MS_STRICTATIME s.strictatime
  let flags := apply_flag flags MS_DIRSYNC s.dirsync
  let flags := apply_flag flags MS_SYNCHRONOUS s.synchronous
  let flags := apply_flag flags MS_MANDLOCK s.mandlock
  flags

/-- An override set that forces exactly one attribute (indexed in the
field order of the struct) to the given value. -/
def singleOverride : Nat → Bool → MountFlags
  | 0, b => { MountFlags.default with readonly := some b }
  | 1, b => { MountFlags.default with nodev := some b }
  | 2, b => { MountFlags.default with noexec := some b }
  | 3, b => { MountFlags.default with nosuid := some b }
  | 4, b => { MountFlags.default with noatime := some b }
  | 5, b => { MountFlags.default with nodiratime := some b }
  | 6, b => { MountFlags.default with relatime := some b }
  | 7, b => { MountFlags.default with strictatime := some b }
  | 8, b => { MountFlags.default with dirsync := some b }
  | 9, b => { MountFlags.default with synchronous := some b }
  | _, b => { MountFlags.default with mandlock := some b }

/-- The flag bit of the attribute with the given index. -/
def attrBit : Nat → Nat
  | 0 => MS_RDONLY
  | 1 => MS_NODEV
  | 2 => MS_NOEXEC
  | 3 => MS_NOSUID
  | 4 => MS_NOATIME
  | 5 => MS_NODIRATIME
  | 6 => MS_RELATIME
  | 7 => MS_STRICTATIME
  | 8 => MS_DIRSYNC
  | 9 => MS_SYNCHRONOUS
  | _ => MS_MANDLOCK

/-! The overlay option-string builder (src/overlay.rs). -/

/-- An overlay mount definition (struct Overlay, minus the target path,
which does not enter the option string). -/
structure Overlay where
  lowerdirs : List (List Byte)
  upperdir : Option (List Byte)
  workdir : Option (List Byte)
deriving DecidableEq

/-- Rust append_escape: escape backslash, colon and comma each as a
backslash followed by the literal byte; copy everything else. -/
def append_escape : List Byte → List Byte
  | [] => []
  | 92 :: bs => 92 :: 92 :: append_escape bs
  | 58 :: bs => 92 :: 58 :: append_escape bs
  | 44 :: bs => 92 :: 44 :: append_escape bs
  | b :: bs => b :: append_escape bs

/-- Entries after the first, each preceded by a colon. -/
def joinLowerdirsRest : List (List Byte) → List Byte
  | [] => []
  | p :: ps => 58 :: append_escape p ++ joinLowerdirsRest ps

/-- The lowerdir list part of the option string: the loop of bare_mount
pushes a colon before every entry except the first. -/
def joinLowerdirs : List (List Byte) → List Byte
  | [] => []
  | p :: ps => append_escape p ++ joinLowerdirsRest ps

/-- The option byte string assembled by Overlay::bare_mount before the
mount call: lowerdir=..., and upperdir=/workdir= only when both are
present. -/
def overlay_options (o : Overlay) : List Byte :=
  let options := str ("lowerdir=") ++ joinLowerdirs o.lowerdirs
  match o.upperdir, o.workdir with
  | some u, some w =>
    options ++ str (",upperdir=") ++ append_escape u ++
      str (",workdir=") ++ append_escape w
  | _, _ => options

/-! Reference definitions written from the specification text (not from
the source), used to state the claims that compare code to spec. -/

/-- Modelled from the spec: the reference kernel-style octal encoder
(claim C3): each space, tab, newline and backslash byte is replaced by
a backslash followed by exactly three octal digits; every other byte is
left unchanged. -/
def kernel_style_encode : List Byte → List Byte
  | [] => []
  | c :: cs =>
    if c = 32 ∨ c = 9 ∨ c = 10 ∨ c = 92 then
      92 :: (48 + c / 64) :: (48 + c / 8 % 8) :: (48 + c % 8) ::
        kernel_style_encode cs
    else c :: kernel_style_encode cs

/-- Modelled from the spec: the overlay escape map of claim C8 -- each
backslash, colon or comma becomes a backslash followed by the literal
byte, other bytes unchanged. -/
def escape_spec (bs : List Byte) : List Byte :=
  bs.foldr
    (fun b acc =>
      (if b = 92 ∨ b = 58 ∨ b = 44 then [92, b] else [b]) ++ acc) []

/-- Modelled from the spec: escaped lower directories joined by colons
(lowerdir=p1:p2:...). -/
def joinColon : List (List Byte) → List Byte
  | [] => []
  | [p] => p
  | p :: ps => p ++ 58 :: joinColon ps

/-- Modelled from the spec: the overlay option string of claim C8. -/
def overlay_options_spec (o : Overlay) : List Byte :=
  str ("lowerdir=") ++ joinColon (o.lowerdirs.map escape_spec) ++
    (match o.upperdir, o.workdir with
     | some u, some w =>
       str (",upperdir=") ++ escape_spec u ++ str (",workdir=") ++
         escape_spec w
     | _, _ => [])

/-- True when the two-byte needle dash-space occurs nowhere in the byte
string (used to state the corrected claim C4). -/
def noDashSpace : List Byte → Bool
  | [] => true
  | [_] => true
  | c :: d :: rest => decide (¬(c = 45 ∧ d = 32)) && noDashSpace (d :: rest)

/-! Helper lemmas about the octal codec. -/

theorem unescape_octals_cons_ne (c : Byte) (l : List Byte) (h : c ≠ 92) :
    unescape_octals (c :: l) = c :: unescape_octals l := by
  rcases l with _ | ⟨d1, _ | ⟨d2, _ | ⟨d3, rest⟩⟩⟩ <;>
    simp [unescape_octals, is_octal_encoding, h]

theorem unescape_octals_escape (d1 d2 d3 : Byte) (rest : List Byte)
    (h1 : is_oct d1 = true) (h2 : is_oct d2 = true) (h3 : is_oct d3 = true) :
    unescape_octals (92 :: d1 :: d2 :: d3 :: rest) =
      parse_octal d1 d2 d3 :: unescape_octals rest := by
  simp [unescape_octals, is_octal_encoding, h1, h2, h3]

/-- Claim C5: decode is the identity on every byte string in which no
position starts an octal escape (backslash followed by three octal
digits); in particular decode never fails: unescape_octals is a total
function on arbitrary byte strings, non-UTF8 ones included. -/
theorem unescape_octals_no_escape_id (b : List Byte)
    (h : ∀ i < b.length, is_octal_encoding (b.drop i) = false) :
    unescape_octals b = b := by
  induction b using unescape_octals.induct with
  | case1 bb d1 d2 d3 rest hoct ih =>
    have h0 := h 0 (by simp)
    simp at h0
    rw [h0] at hoct
    exact absurd hoct (by simp)
  | case2 bb d1 d2 d3 rest hoct ih =>
    rw [unescape_octals, if_neg (by simp [hoct])]
    congr 1
    exact ih (fun i hi => h (i + 1) (by simpa using Nat.succ_lt_succ hi))
  | case3 c cs hshape ih =>
    have hcs := ih (fun i hi => h (i + 1) (by simpa using Nat.succ_lt_succ hi))
    rcases cs with _ | ⟨d1, _ | ⟨d2, _ | ⟨d3, rest⟩⟩⟩
    · simp [unescape_octals]
    · simp [unescape_octals]
    · simp [unescape_octals]
    · exact absurd rfl (by intro hh; exact hshape d1 d2 d3 rest hh)
  | case4 => rfl

/-- Witness for claim C5 at a concrete input containing a lone
backslash followed by one octal digit and a non-UTF8 byte. -/
theorem unescape_octals_no_escape_id_witness :
    unescape_octals [97, 92, 53, 120, 255] = [97, 92, 53, 120, 255] :=
  unescape_octals_no_escape_id [97, 92, 53, 120, 255] (by decide)

/-- Claim C7: an escape of a backslash and three octal digits decodes,
without failing, to the byte obtained by masking each digit character
to its low three bits and accumulating, i.e. (d1*64 + d2*8 + d3)
truncated to eight bits; out-of-range escapes like 777 or 400 are
truncated the same way. -/
theorem parse_octal_masks (d1 d2 d3 : Nat) (rest : List Byte)
    (h1 : is_oct d1 = true) (h2 : is_oct d2 = true) (h3 : is_oct d3 = true) :
    unescape_octals (92 :: d1 :: d2 :: d3 :: rest) =
      parse_octal d1 d2 d3 :: unescape_octals rest ∧
    parse_octal d1 d2 d3 =
      ((d1 - 48) * 64 + (d2 - 48) * 8 + (d3 - 48)) % 256 := by
  refine ⟨unescape_octals_escape d1 d2 d3 rest h1 h2 h3, ?_⟩
  simp [is_oct, Bool.and_eq_true, decide_eq_true_eq] at h1 h2 h3
  unfold parse_octal
  have e7 : (7 : Nat) = 2 ^ 3 - 1 := rfl
  rw [e7, Nat.and_pow_two_sub_one_eq_mod, Nat.and_pow_two_sub_one_eq_mod,
    Nat.and_pow_two_sub_one_eq_mod, Nat.shiftLeft_eq, Nat.shiftLeft_eq]
  simp only [show (2 : Nat) ^ 3 = 8 from rfl, show (2 : Nat) ^ 6 = 64 from rfl]
  omega

/-- Witness for claim C7: the escape 777 decodes to byte 255 and the
escape 400 decodes to byte 0. -/
theorem parse_octal_masks_witness :
    unescape_octals [92, 55, 55, 55] = [255] ∧
    unescape_octals [92, 52, 48, 48] = [0] := by
  have h1 := parse_octal_masks 55 55 55 [] (by decide) (by decide) (by decide)
  have h2 := parse_octal_masks 52 48 48 [] (by decide) (by decide) (by decide)
  exact ⟨by rw [h1.1]; rfl, by rw [h2.1]; rfl⟩

/-- Claim C3: decoding the kernel-style octal encoding of any byte
string returns it unchanged: unescape_octals is a left inverse of the
reference encoder that escapes space, tab, newline and backslash as a
backslash plus exactly three octal digits. -/
theorem decode_kernel_encode_roundtrip (b : List Byte) :
    unescape_octals (kernel_style_encode b) = b := by
  induction b with
  | nil => rfl
  | cons c cs ih =>
    by_cases hc : c = 32 ∨ c = 9 ∨ c = 10 ∨ c = 92
    · rcases hc with h | h | h | h <;> subst h
      · have henc : kernel_style_encode (32 :: cs) =
            92 :: 48 :: 52 :: 48 :: kernel_style_encode cs := by
          simp [kernel_style_encode]
        rw [henc, unescape_octals_escape 48 52 48 _ rfl rfl rfl, ih]
        rfl
      · have henc : kernel_style_encode (9 :: cs) =
            92 :: 48 :: 49 :: 49 :: kernel_style_encode cs := by
          simp [kernel_style_encode]
        rw [henc, unescape_octals_escape 48 49 49 _ rfl rfl rfl, ih]
        rfl
      · have henc : kernel_style_encode (10 :: cs) =
            92 :: 48 :: 49 :: 50 :: kernel_style_encode cs := by
          simp [kernel_style_encode]
        rw [henc, unescape_octals_escape 48 49 50 _ rfl rfl rfl, ih]
        rfl
      · have henc : kernel_style_encode (92 :: cs) =
            92 :: 49 :: 51 :: 52 :: kernel_style_encode cs := by
          simp [kernel_style_encode]
        rw [henc, unescape_octals_escape 49 51 52 _ rfl rfl rfl, ih]
        rfl
    · have hne : c ≠ 92 := by
        intro hcc
        exact hc (Or.inr (Or.inr (Or.inr hcc)))
      rw [kernel_style_encode, if_neg hc, unescape_octals_cons_ne c _ hne, ih]

/-! The overlay option string (claim C8). -/

theorem escape_spec_cons (b : Byte) (bs : List Byte) :
    escape_spec (b :: bs) =
      (if b = 92 ∨ b = 58 ∨ b = 44 then [92, b] else [b]) ++ escape_spec bs :=
  rfl

theorem append_escape_eq_spec (bs : List Byte) :
    append_escape bs = escape_spec bs := by
  induction bs using append_escape.induct with
  | case1 => rfl
  | case2 bs ih => simp [append_escape, escape_spec_cons, ih]
  | case3 bs ih => simp [append_escape, escape_spec_cons, ih]
  | case4 bs ih => simp [append_escape, escape_spec_cons, ih]
  | case5 b bs h92 h58 h44 ih =>
    simp only [append_escape, escape_spec_cons, ih]
    rw [if_neg (fun h => by rcases h with h | h | h; exacts [h92 h, h58 h, h44 h])]
    rfl

theorem joinLowerdirsRest_spec (ps : List (List Byte)) (x : List Byte) :
    x ++ joinLowerdirsRest ps = joinColon (x :: ps.map escape_spec) := by
  induction ps generalizing x with
  | nil => simp [joinLowerdirsRest, joinColon]
  | cons p ps ih =>
    rw [joinLowerdirsRest, List.map,
      show joinColon (x :: escape_spec p :: List.map escape_spec ps) =
        x ++ 58 :: joinColon (escape_spec p :: List.map escape_spec ps) from rfl,
      append_escape_eq_spec, ← ih (escape_spec p)]
    simp

theorem joinLowerdirs_spec (ps : List (List Byte)) :
    joinLowerdirs ps = joinColon (ps.map escape_spec) := by
  cases ps with
  | nil => rfl
  | cons p ps =>
    rw [joinLowerdirs, append_escape_eq_spec]
    exact joinLowerdirsRest_spec ps (escape_spec p)

/-- Claim C8: the overlay option-string builder escapes exactly
backslash, colon and comma (each as a backslash plus the literal byte,
never octal), leaves other bytes unchanged, and produces
lowerdir=p1:p2:... for a read-only overlay, appending
,upperdir=u,workdir=w exactly when both are present. -/
theorem overlay_options_matches_spec (o : Overlay) :
    overlay_options o = overlay_options_spec o := by
  rcases o with ⟨lds, u, w⟩
  rcases u with _ | u <;> rcases w with _ | w <;>
    simp [overlay_options, overlay_options_spec, joinLowerdirs_spec,
      append_escape_eq_spec, List.append_assoc]

/-! The override merge (claim C6). -/

theorem testBit_apply_flag_some (flags flag : Nat) (b : Bool) (j : Nat)
    (hflag : flag &&& msflags_all = flag)
    (hflags : flags &&& msflags_all = flags) :
    (apply_flag flags flag (some b)).testBit j =
      if flag.testBit j then b else flags.testBit j := by
  have hall : msflags_all < 2 ^ 64 := by decide
  cases b with
  | true =>
    simp only [apply_flag, Nat.testBit_lor]
    by_cases hb : flag.testBit j <;> simp [hb]
  | false =>
    simp only [apply_flag, msflags_not, Nat.testBit_land, Nat.testBit_xor]
    have hfj : flag.testBit j = (flag.testBit j && msflags_all.testBit j) := by
      conv_lhs => rw [← hflag]
      rw [Nat.testBit_land]
    have hgj : flags.testBit j = (flags.testBit j && msflags_all.testBit j) := by
      conv_lhs => rw [← hflags]
      rw [Nat.testBit_land]
    rw [Nat.testBit_two_pow_sub_one]
    by_cases hj : j < 64
    · by_cases hb : flag.testBit j = true
      · simp [hb, hj]
      · have hb' : flag.testBit j = false := by
          revert hb
          cases flag.testBit j <;> simp
        simp only [hb', hj, decide_True, Bool.xor_false, if_false,
          Bool.false_eq_true]
        exact hgj.symm
    · have hallj : msflags_all.testBit j = false :=
        Nat.testBit_eq_false_of_lt
          (lt_of_lt_of_le hall (Nat.pow_le_pow_right (by norm_num) (by omega)))
      have hfj0 : flag.testBit j = false := by
        rw [hfj, hallj]
        simp
      have hgj0 : flags.testBit j = false := by
        rw [hgj, hallj]
        simp
      simp [hfj0, hgj0, hallj, hj]

theorem apply_to_flags_single (i : Nat) (b : Bool) (flags : Nat) :
    MountFlags.apply_to_flags (singleOverride i b) flags =
      apply_flag flags (attrBit i) (some b) := by
  obtain _ | _ | _ | _ | _ | _ | _ | _ | _ | _ | n := i <;> rfl

theorem attrBit_valid (i : Nat) : attrBit i &&& msflags_all = attrBit i := by
  obtain _ | _ | _ | _ | _ | _ | _ | _ | _ | _ | n := i <;>
    first
      | decide
      | exact (by decide : MS_MANDLOCK &&& msflags_all = MS_MANDLOCK)

/-- Claim C6: apply_to_flags is a pure function; with every override
unset it is the identity, and forcing a single attribute sets or clears
exactly that attribute's bit, leaving every other bit of the (valid)
flag word unchanged; here validity is the MsFlags type invariant that
only defined flag bits are set. -/
theorem apply_overrides_correct :
    (∀ flags : Nat, MountFlags.apply_to_flags MountFlags.default flags = flags) ∧
    (∀ (i : Nat) (b : Bool) (flags j : Nat), flags &&& msflags_all = flags →
      (MountFlags.apply_to_flags (singleOverride i b) flags).testBit j =
        if (attrBit i).testBit j then b else flags.testBit j) := by
  constructor
  · intro flags
    rfl
  · intro i b flags j hval
    rw [apply_to_flags_single]
    exact testBit_apply_flag_some flags (attrBit i) b j (attrBit_valid i) hval

/-- Witness for claim C6: clearing readonly on the flag word with
readonly and nodev set clears exactly bit 0. -/
theorem apply_overrides_correct_witness :
    (5 &&& msflags_all = 5) ∧
    ((MountFlags.apply_to_flags (singleOverride 0 false) 5).testBit 0 =
      if (attrBit 0).testBit 0 then false else (5 : Nat).testBit 0) :=
  ⟨by decide, apply_overrides_correct.2 0 false 5 0 (by decide)⟩

/-! The snapshot lookup (claims C1 and C9). -/

theorem locate_flags_some_acc (path : List Byte) :
    ∀ (rs : List ParseItem) (f : Nat),
      locate_flags path rs (some f) ≠ .ok none := by
  intro rs
  induction rs with
  | nil =>
    intro f h
    simp [locate_flags] at h
  | cons r rest ih =>
    intro f h
    cases r with
    | error e => simp [locate_flags] at h
    | ok mp =>
      rw [locate_flags] at h
      by_cases hm : mp.mount_point = path
      · rw [if_pos hm] at h
        exact ih _ h
      · rw [if_neg hm] at h
        exact ih _ h

theorem locate_flags_ok_none_iff (path : List Byte) :
    ∀ (rs : List ParseItem) (acc : Option Nat),
      locate_flags path rs acc = .ok none ↔
        ((∀ r ∈ rs, ∃ mp, r = .ok mp ∧ mp.mount_point ≠ path) ∧ acc = none) := by
  intro rs
  induction rs with
  | nil =>
    intro acc
    simp [locate_flags]
  | cons r rest ih =>
    intro acc
    cases r with
    | error e => simp [locate_flags]
    | ok mp =>
      rw [locate_flags]
      by_cases hm : mp.mount_point = path
      · rw [if_pos hm]
        constructor
        · intro h
          exact absurd h (locate_flags_some_acc path rest _)
        · rintro ⟨h1, _⟩
          obtain ⟨mp', hmp', hne⟩ := h1 (.ok mp) (by simp)
          have hmm : mp = mp' := by
            injection hmp'
          subst hmm
          exact absurd hm hne
      · rw [if_neg hm, ih]
        constructor
        · rintro ⟨h1, h2⟩
          refine ⟨?_, h2⟩
          rintro r hr
          rcases List.mem_cons.mp hr with hr | hr
          · exact ⟨mp, by simp [hr], hm⟩
          · exact h1 r hr
        · rintro ⟨h1, h2⟩
          exact ⟨fun r hr => h1 r (List.mem_cons_of_mem _ hr), h2⟩

theorem locate_flags_error (path : List Byte) :
    ∀ (rs : List ParseItem) (acc : Option Nat) (e : ParseError),
      .error e ∈ rs → ∃ e', locate_flags path rs acc = .error e' := by
  intro rs
  induction rs with
  | nil => simp
  | cons r rest ih =>
    intro acc e he
    cases r with
    | error e0 => exact ⟨e0, by simp [locate_flags]⟩
    | ok mp =>
      rcases List.mem_cons.mp he with h | h
      · exact absurd h (by simp)
      · rw [locate_flags]
        exact ih _ e h

theorem locate_flags_map_ok (path : List Byte) :
    ∀ (mps : List MountPoint) (acc : Option Nat),
      locate_flags path (mps.map Except.ok) acc =
        .ok (match (mps.filter fun mp =>
              decide (mp.mount_point = path)).getLast? with
            | some m => some m.get_flags
            | none => acc) := by
  intro mps
  induction mps with
  | nil =>
    intro acc
    simp [locate_flags]
  | cons mp rest ih =>
    intro acc
    rw [List.map_cons, locate_flags]
    by_cases hm : mp.mount_point = path
    · rw [if_pos hm, ih]
      rw [List.filter_cons_of_pos (by simpa using hm)]
      cases hfr : rest.filter fun x => decide (x.mount_point = path) with
      | nil => simp
      | cons q qs =>
        rw [List.getLast?_cons_cons]
        obtain ⟨m, hm2⟩ :=
          Option.isSome_iff_exists.mp (List.getLast?_isSome.mpr
            (List.cons_ne_nil q qs))
        rw [hm2]
    · rw [if_neg hm, ih]
      rw [List.filter_cons_of_neg (by simpa using hm)]

/-- Claim C1 (amended): on a snapshot buffer whose every line parses
successfully, the lookup returns the flags of the last record (in
buffer order) whose mount_point equals the target, also when two or
more records match; the scan does not stop at the first match. -/
theorem get_mountpoint_flags_from_last_match (content path : List Byte)
    (mps : List MountPoint) (m : MountPoint)
    (hrun : Parser.run (Parser.new content) = mps.map Except.ok)
    (hlast : (mps.filter fun mp =>
      decide (mp.mount_point = path)).getLast? = some m)
    (hlen : 2 ≤ (mps.filter fun mp =>
      decide (mp.mount_point = path)).length) :
    get_mountpoint_flags_from content path = .ok (some m.get_flags) := by
  rw [get_mountpoint_flags_from, hrun, locate_flags_map_ok, hlast]

/-- Claim C9: the lookup reports UnknownMountPoint (carrying the
resolved target) exactly when every snapshot line parses and no record
matches the target; any parse error in the snapshot aborts the lookup
with the wrapped ParseError, even when a matching record exists. -/
theorem get_mountpoint_flags_pure_errors (content path : List Byte) :
    (get_mountpoint_flags_pure content path =
        .error (.UnknownMountPoint path) ↔
      ((∀ r ∈ Parser.run (Parser.new content), ∃ mp, r = .ok mp) ∧
       (∀ mp : MountPoint, .ok mp ∈ Parser.run (Parser.new content) →
          mp.mount_point ≠ path))) ∧
    ((∃ e, .error e ∈ Parser.run (Parser.new content)) →
      ∃ e, get_mountpoint_flags_pure content path =
        .error (.ParseMountInfo e)) := by
  constructor
  · have hiff := locate_flags_ok_none_iff path
      (Parser.run (Parser.new content)) none
    constructor
    · intro h
      have hok : get_mountpoint_flags_from content path = .ok none := by
        rw [get_mountpoint_flags_pure] at h
        cases hg : get_mountpoint_flags_from content path with
        | ok v =>
          cases v with
          | none => rfl
          | some f =>
            rw [hg] at h
            simp at h
        | error e =>
          rw [hg] at h
          simp at h
      rw [get_mountpoint_flags_from] at hok
      obtain ⟨h1, -⟩ := hiff.mp hok
      constructor
      · intro r hr
        obtain ⟨mp, hmp, -⟩ := h1 r hr
        exact ⟨mp, hmp⟩
      · intro mp hmp
        obtain ⟨mp', hmp', hne⟩ := h1 (.ok mp) hmp
        have hmm : mp = mp' := by
          injection hmp'
        subst hmm
        exact hne
    · rintro ⟨h1, h2⟩
      have hok : get_mountpoint_flags_from content path = .ok none := by
        rw [get_mountpoint_flags_from]
        refine hiff.mpr ⟨?_, rfl⟩
        intro r hr
        obtain ⟨mp, hmp⟩ := h1 r hr
        exact ⟨mp, hmp, h2 mp (hmp ▸ hr)⟩
      rw [get_mountpoint_flags_pure, hok]
  · rintro ⟨e, he⟩
    obtain ⟨e', hloc⟩ := locate_flags_error path
      (Parser.run (Parser.new content)) none e he
    refine ⟨e', ?_⟩
    have hok : get_mountpoint_flags_from content path = .error e' := by
      rw [get_mountpoint_flags_from]
      exact hloc
    rw [get_mountpoint_flags_pure, hok]

/-! The optional-fields delimiter (claim C4). -/

theorem lstrip_whitespaces_no_space (l : List Byte) (h : l.head? ≠ some 32) :
    lstrip_whitespaces l = l := by
  cases l with
  | nil => rfl
  | cons c cs =>
    have hc : c ≠ 32 := fun hc => h (by simp [hc])
    rw [lstrip_whitespaces, if_neg hc]

theorem noDashSpace_cons (c : Byte) (l : List Byte)
    (h : noDashSpace (c :: l) = true) : noDashSpace l = true := by
  cases l with
  | nil => rfl
  | cons d t =>
    rw [show noDashSpace (c :: d :: t) =
        (decide (¬(c = 45 ∧ d = 32)) && noDashSpace (d :: t)) from rfl,
      Bool.and_eq_true] at h
    exact h.2

theorem dash_space_not_at_head (c : Byte) (x' rest : List Byte)
    (h : noDashSpace (c :: x') = true) :
    List.isPrefixOf [45, 32] (c :: (x' ++ 45 :: 32 :: rest)) = false := by
  by_cases hc : c = 45
  · subst hc
    cases x' with
    | nil => simp [List.isPrefixOf]
    | cons a t =>
      have ha : ¬(45 = 45 ∧ a = 32) := by
        rw [show noDashSpace (45 :: a :: t) =
            (decide (¬(45 = 45 ∧ a = 32)) && noDashSpace (a :: t)) from rfl,
          Bool.and_eq_true, decide_eq_true_eq] at h
        exact h.1
      have ha' : a ≠ 32 := fun hh => ha ⟨rfl, hh⟩
      simp [List.isPrefixOf, Ne.symm ha']
  · simp [List.isPrefixOf, Ne.symm hc]

theorem split_by_dash_space (x rest : List Byte) (h : noDashSpace x = true) :
    split_by (x ++ 45 :: 32 :: rest) [45, 32] = (x, rest) := by
  induction x with
  | nil =>
    rw [List.nil_append, split_by, if_pos (by simp [List.isPrefixOf])]
    rfl
  | cons c x' ih =>
    rw [List.cons_append, split_by, if_neg (by
      simp [dash_space_not_at_head c x' rest h])]
    show (c :: (split_by (x' ++ 45 :: 32 :: rest) [45, 32]).1,
      (split_by (x' ++ 45 :: 32 :: rest) [45, 32]).2) = (c :: x', rest)
    rw [ih (noDashSpace_cons c x' h)]

/-- Claim C4 (amended): the optional-fields section is delimited by the
first occurrence of the two-byte substring dash-space in the
(left-stripped) remainder of the line: the bytes before it,
right-stripped of spaces, are the optional fields (empty when the
dash-space immediately follows the options), and the remainder after
the dash-space follows.  The token-based reading of the claim holds
exactly when no optional-field token ends in a dash; a token ending in
a dash makes the splitter fire inside the token list (see the
counterexample). -/
theorem parse_optional_dash_space (x rest : List Byte)
    (h1 : noDashSpace x = true) (h2 : x.head? ≠ some 32) :
    parse_optional (x ++ 45 :: 32 :: rest) =
      .ok (unescape_octals (rstrip_whitespaces x), rest) := by
  have hne : x ++ 45 :: 32 :: rest ≠ [] := by cases x <;> simp
  have hhead : (x ++ 45 :: 32 :: rest).head? ≠ some 32 := by
    cases x with
    | nil => simp
    | cons c cs => simpa using h2
  have hf : parse_field (x ++ 45 :: 32 :: rest) [45, 32] = .ok (x, rest) := by
    rw [parse_field, if_neg hne, lstrip_whitespaces_no_space _ hhead,
      split_by_dash_space x rest h1]
  simp only [parse_optional, hf]
  rfl

/-- Witness for the amended claim C4 at a line with two optional
fields followed by the dash-space separator and the trailing fields. -/
theorem parse_optional_dash_space_witness :
    parse_optional ((str ("shared:12 master:1 ")) ++ 45 :: 32 ::
        (str ("ext4 s r"))) =
      .ok (unescape_octals (rstrip_whitespaces (str ("shared:12 master:1 "))),
        str ("ext4 s r")) :=
  parse_optional_dash_space _ _ (by decide) (by decide)

/-- Counterexample to claim C4 as stated: on a line whose single
optional-field token ends in a dash, the parser does not put the whole
token into optional_fields; it splits at the dash-space inside the
token run, leaving optional_fields "foo" (not "foo-") and making the
fstype field the leftover dash instead of ext4. -/
theorem parse_optional_token_dash_cex :
    parse_mount_point (str ("1 2 0:0 / /mp rw foo- - ext4 src opts")) =
      .ok (some ⟨1, 2, 0, 0, str ("/"), str ("/mp"), str ("rw"), str ("foo"),
        str ("-"), str ("ext4"), str ("src")⟩) ∧
    str ("foo") ≠ str ("foo-") :=
  ⟨by decide, by decide⟩

/-! Structure of the iterator loop (claim C10). -/

theorem splitFirstLine_some :
    ∀ (d row rest : List Byte), splitFirstLine d = some (row, rest) →
      d = row ++ 10 :: rest ∧ countNL row = 0 := by
  intro d
  induction d with
  | nil =>
    intro row rest h
    simp [splitFirstLine] at h
  | cons c cs ih =>
    intro row rest h
    rw [splitFirstLine] at h
    by_cases hc : c = 10
    · rw [if_pos hc] at h
      simp only [Option.some.injEq, Prod.mk.injEq] at h
      obtain ⟨hrow, hrest⟩ := h
      subst hrow
      subst hrest
      subst hc
      exact ⟨rfl, rfl⟩
    · rw [if_neg hc] at h
      cases hs : splitFirstLine cs with
      | none =>
        rw [hs] at h
        dsimp only at h
        simp at h
      | some p =>
        obtain ⟨l, r⟩ := p
        rw [hs] at h
        dsimp only at h
        simp only [Option.map, Option.some.injEq, Prod.mk.injEq] at h
        obtain ⟨hrow, hrest⟩ := h
        subst hrow
        subst hrest
        obtain ⟨hd, hcount⟩ := ih l r hs
        constructor
        · rw [hd]
          simp
        · simp [countNL, List.count_cons] at hcount ⊢
          exact ⟨hcount, by exact hc⟩

theorem splitFirstLine_none :
    ∀ d : List Byte, splitFirstLine d = none → countNL d = 0 := by
  intro d
  induction d with
  | nil =>
    intro h
    rfl
  | cons c cs ih =>
    intro h
    rw [splitFirstLine] at h
    by_cases hc : c = 10
    · rw [if_pos hc] at h
      simp at h
    · rw [if_neg hc] at h
      cases hs : splitFirstLine cs with
      | some p =>
        obtain ⟨l, r⟩ := p
        rw [hs] at h
        dsimp only at h
        simp at h
      | none =>
        have hcs := ih hs
        simp [countNL, List.count_cons] at hcs ⊢
        exact ⟨hcs, by exact hc⟩

theorem countNL_split (d row rest : List Byte)
    (h : splitFirstLine d = some (row, rest)) :
    countNL d = countNL rest + 1 := by
  obtain ⟨hd, hrow⟩ := splitFirstLine_some d row rest h
  subst hd
  simp [countNL] at hrow
  simp [countNL, List.count_append, List.count_cons, hrow]

theorem next_exhausted (s : ParserState) (h : s.exhausted = true) :
    Parser.next s = (none, s) := by
  simp [Parser.next, h]

theorem next_not_exhausted (n : Nat) (d : List Byte) :
    Parser.next ⟨d, n, false⟩ =
      match splitFirstLine d with
      | some (row, rest) =>
        match parse_mount_point row with
        | .ok none => Parser.next ⟨rest, n + 1, false⟩
        | .ok (some v) => (some (.ok v), ⟨rest, n + 1, false⟩)
        | .error e => (some (.error ⟨e, n + 1, row⟩), ⟨rest, n + 1, false⟩)
      | none =>
        match parse_mount_point d with
        | .ok none => (none, ⟨d, n, true⟩)
        | .ok (some v) => (some (.ok v), ⟨d, n, true⟩)
        | .error e => (some (.error ⟨e, n, d⟩), ⟨d, n, true⟩) := by
  have h0 : Parser.next ⟨d, n, false⟩ = nextFuel (countNL d) n d := by
    simp [Parser.next]
  rw [h0, nextFuel]
  cases hs : splitFirstLine d with
  | none => rfl
  | some p =>
    obtain ⟨row, rest⟩ := p
    have hc := countNL_split d row rest hs
    rw [hc]
    dsimp only
    cases hp : parse_mount_point row with
    | error e => rfl
    | ok v =>
      cases v with
      | some mp => rfl
      | none =>
        show nextFuel (countNL rest) (n + 1) rest = Parser.next ⟨rest, n + 1, false⟩
        simp [Parser.next]

theorem nextFuel_none_exhausted :
    ∀ (fuel n : Nat) (d : List Byte) (s' : ParserState),
      nextFuel fuel n d = (none, s') → s'.exhausted = true := by
  intro fuel
  induction fuel with
  | zero =>
    intro n d s' h
    rw [nextFuel] at h
    cases hs : splitFirstLine d with
    | none =>
      rw [hs] at h
      dsimp only at h
      cases hp : parse_mount_point d with
      | error e =>
        rw [hp] at h
        simp at h
      | ok v =>
        cases v with
        | some mp =>
          rw [hp] at h
          simp at h
        | none =>
          rw [hp] at h
          simp only [Prod.mk.injEq] at h
          rw [← h.2]
    | some p =>
      obtain ⟨row, rest⟩ := p
      rw [hs] at h
      dsimp only at h
      cases hp : parse_mount_point row with
      | error e =>
        rw [hp] at h
        simp at h
      | ok v =>
        cases v with
        | some mp =>
          rw [hp] at h
          simp at h
        | none =>
          rw [hp] at h
          simp only [Prod.mk.injEq] at h
          rw [← h.2]
  | succ fuel ih =>
    intro n d s' h
    rw [nextFuel] at h
    cases hs : splitFirstLine d with
    | none =>
      rw [hs] at h
      dsimp only at h
      cases hp : parse_mount_point d with
      | error e =>
        rw [hp] at h
        simp at h
      | ok v =>
        cases v with
        | some mp =>
          rw [hp] at h
          simp at h
        | none =>
          rw [hp] at h
          simp only [Prod.mk.injEq] at h
          rw [← h.2]
    | some p =>
      obtain ⟨row, rest⟩ := p
      rw [hs] at h
      dsimp only at h
      cases hp : parse_mount_point row with
      | error e =>
        rw [hp] at h
        simp at h
      | ok v =>
        cases v with
        | some mp =>
          rw [hp] at h
          simp at h
        | none =>
          rw [hp] at h
          exact ih _ _ _ h

theorem next_none_exhausted (s s' : ParserState)
    (h : Parser.next s = (none, s')) : s'.exhausted = true := by
  by_cases he : s.exhausted = true
  · rw [next_exhausted s he] at h
    simp only [Prod.mk.injEq] at h
    rw [← h.2]
    exact he
  · obtain ⟨d, n, ex⟩ := s
    have hex : ex = false := by
      revert he
      cases ex <;> simp
    subst hex
    have h' : nextFuel (countNL d) n d = (none, s') := by
      rw [← h]
      simp [Parser.next]
    exact nextFuel_none_exhausted _ _ _ _ h'

theorem nextFuel_some_dec :
    ∀ (fuel n : Nat) (d : List Byte) (r : ParseItem) (s' : ParserState),
      nextFuel fuel n d = (some r, s') →
      s'.exhausted = true ∨
        (s'.exhausted = false ∧ countNL s'.data < countNL d) := by
  intro fuel
  induction fuel with
  | zero =>
    intro n d r s' h
    rw [nextFuel] at h
    cases hs : splitFirstLine d with
    | none =>
      rw [hs] at h
      dsimp only at h
      cases hp : parse_mount_point d with
      | error e =>
        rw [hp] at h
        simp only [Prod.mk.injEq] at h
        left
        rw [← h.2]
      | ok v =>
        cases v with
        | some mp =>
          rw [hp] at h
          simp only [Prod.mk.injEq] at h
          left
          rw [← h.2]
        | none =>
          rw [hp] at h
          simp at h
    | some p =>
      obtain ⟨row, rest⟩ := p
      rw [hs] at h
      dsimp only at h
      have hcd := countNL_split d row rest hs
      cases hp : parse_mount_point row with
      | error e =>
        rw [hp] at h
        simp only [Prod.mk.injEq] at h
        right
        rw [← h.2]
        exact ⟨rfl, by show countNL rest < countNL d; omega⟩
      | ok v =>
        cases v with
        | some mp =>
          rw [hp] at h
          simp only [Prod.mk.injEq] at h
          right
          rw [← h.2]
          exact ⟨rfl, by show countNL rest < countNL d; omega⟩
        | none =>
          rw [hp] at h
          simp at h
  | succ fuel ih =>
    intro n d r s' h
    rw [nextFuel] at h
    cases hs : splitFirstLine d with
    | none =>
      rw [hs] at h
      dsimp only at h
      cases hp : parse_mount_point d with
      | error e =>
        rw [hp] at h
        simp only [Prod.mk.injEq] at h
        left
        rw [← h.2]
      | ok v =>
        cases v with
        | some mp =>
          rw [hp] at h
          simp only [Prod.mk.injEq] at h
          left
          rw [← h.2]
        | none =>
          rw [hp] at h
          simp at h
    | some p =>
      obtain ⟨row, rest⟩ := p
      rw [hs] at h
      dsimp only at h
      have hcd := countNL_split d row rest hs
      cases hp : parse_mount_point row with
      | error e =>
        rw [hp] at h
        simp only [Prod.mk.injEq] at h
        right
        rw [← h.2]
        exact ⟨rfl, by show countNL rest < countNL d; omega⟩
      | ok v =>
        cases v with
        | some mp =>
          rw [hp] at h
          simp only [Prod.mk.injEq] at h
          right
          rw [← h.2]
          exact ⟨rfl, by show countNL rest < countNL d; omega⟩
        | none =>
          rw [hp] at h
          rcases ih _ _ _ _ h with hc | ⟨hc1, hc2⟩
          · exact Or.inl hc
          · exact Or.inr ⟨hc1, by omega⟩

theorem next_some_dec (d : List Byte) (n : Nat) (r : ParseItem)
    (s' : ParserState) (h : Parser.next ⟨d, n, false⟩ = (some r, s')) :
    s'.exhausted = true ∨
      (s'.exhausted = false ∧ countNL s'.data < countNL d) := by
  have h' : nextFuel (countNL d) n d = (some r, s') := by
    rw [← h]
    simp [Parser.next]
  exact nextFuel_some_dec _ _ _ _ _ h'

theorem runFuel_exhausted (fuel : Nat) (s : ParserState)
    (h : s.exhausted = true) : runFuel fuel s = [] := by
  cases fuel with
  | zero => rfl
  | succ fuel =>
    rw [runFuel, next_exhausted s h]

theorem runFuel_congr :
    ∀ (f1 : Nat) (s : ParserState) (f2 : Nat),
      countNL s.data + 2 ≤ f1 → countNL s.data + 2 ≤ f2 →
      runFuel f1 s = runFuel f2 s := by
  intro f1
  induction f1 with
  | zero =>
    intro s f2 h1 h2
    exact absurd h1 (by omega)
  | succ g1 ih =>
    intro s f2 h1 h2
    cases f2 with
    | zero => exact absurd h2 (by omega)
    | succ g2 =>
      rw [runFuel, runFuel]
      cases hn : Parser.next s with
      | mk o s2 =>
        cases o with
        | none => rfl
        | some r =>
          dsimp only
          congr 1
          by_cases he : s2.exhausted = true
          · rw [runFuel_exhausted g1 s2 he, runFuel_exhausted g2 s2 he]
          · have he' : s2.exhausted = false := by
              revert he
              cases s2.exhausted <;> simp
            obtain ⟨d, n, ex⟩ := s
            cases ex with
            | true =>
              rw [next_exhausted _ rfl] at hn
              simp at hn
            | false =>
              rcases next_some_dec d n r s2 hn with hc | ⟨-, hlt⟩
              · rw [hc] at he'
                exact absurd he' (by simp)
              · have h1' : countNL d + 2 ≤ g1 + 1 := h1
                have h2' : countNL d + 2 ≤ g2 + 1 := h2
                exact ih s2 g2 (by omega) (by omega)

theorem run_exhausted (s : ParserState) (h : s.exhausted = true) :
    Parser.run s = [] := by
  rw [Parser.run]
  exact runFuel_exhausted _ _ h

theorem run_unfold (s : ParserState) :
    Parser.run s =
      match Parser.next s with
      | (none, _) => []
      | (some r, s') => r :: Parser.run s' := by
  rw [Parser.run]
  rw [show countNL s.data + 2 = (countNL s.data + 1) + 1 from rfl, runFuel]
  cases hn : Parser.next s with
  | mk o s2 =>
    cases o with
    | none => rfl
    | some r =>
      dsimp only
      congr 1
      by_cases he : s2.exhausted = true
      · rw [runFuel_exhausted _ _ he, run_exhausted _ he]
      · have he' : s2.exhausted = false := by
          revert he
          cases s2.exhausted <;> simp
        obtain ⟨d, n, ex⟩ := s
        cases ex with
        | true =>
          rw [next_exhausted _ rfl] at hn
          simp at hn
        | false =>
          rcases next_some_dec d n r s2 hn with hc | ⟨-, hlt⟩
          · rw [hc] at he'
            exact absurd he' (by simp)
          · rw [Parser.run]
            have hlt' : countNL s2.data < countNL d := hlt
            have hgoal : countNL (ParserState.mk d n false).data + 1 =
                countNL d + 1 := rfl
            exact runFuel_congr _ s2 _ (by rw [hgoal]; omega) (by omega)

theorem run_length_aux :
    ∀ (m : Nat) (d : List Byte) (n : Nat), countNL d ≤ m →
      (Parser.run ⟨d, n, false⟩).length ≤ countNL d + 1 := by
  intro m
  induction m with
  | zero =>
    intro d n hm
    rw [run_unfold]
    cases hn : Parser.next ⟨d, n, false⟩ with
    | mk o s2 =>
      cases o with
      | none => simp
      | some r =>
        rcases next_some_dec d n r s2 hn with hc | ⟨-, hlt⟩
        · simp [run_exhausted s2 hc]
        · exact absurd hlt (by omega)
  | succ m ih =>
    intro d n hm
    rw [run_unfold]
    cases hn : Parser.next ⟨d, n, false⟩ with
    | mk o s2 =>
      cases o with
      | none => simp
      | some r =>
        rcases next_some_dec d n r s2 hn with hc | ⟨hex, hlt⟩
        · simp [run_exhausted s2 hc]
        · obtain ⟨d2, n2, ex2⟩ := s2
          have hex2 : ex2 = false := hex
          subst hex2
          have hlt2 : countNL d2 < countNL d := hlt
          have hrec := ih d2 n2 (by omega)
          simp only [List.length_cons]
          omega

/-- Claim C10: the iterator is total on arbitrary byte buffers: the
sequence of yielded items is finite with at most one item per physical
line (number of newlines plus one), every item is an ok record or a
ParseError by construction of the Except-valued model, and once next
has returned none, every subsequent call returns none on the same
state. -/
theorem parser_is_total (data : List Byte) :
    (Parser.run (Parser.new data)).length ≤ countNL data + 1 ∧
    (∀ s s' : ParserState, Parser.next s = (none, s') →
      Parser.next s' = (none, s')) := by
  constructor
  · exact run_length_aux (countNL data) data 0 (Nat.le_refl _)
  · intro s s' h
    exact next_exhausted s' (next_none_exhausted s s' h)

/-- Witness for claim C10: the item bound on a one-line buffer, and the
fused parser on the empty buffer keeps returning none. -/
theorem parser_is_total_witness :
    (Parser.run (Parser.new [120])).length ≤ countNL [120] + 1 ∧
    Parser.next ⟨[], 0, true⟩ = (none, ⟨[], 0, true⟩) :=
  ⟨(parser_is_total [120]).1,
   (parser_is_total [120]).2 ⟨[], 0, false⟩ ⟨[], 0, true⟩ (by decide)⟩

/-! Remaining per-claim concrete theorems. -/

/-- Claim C2 (code bug, evaluation): errors on newline-terminated lines
carry the correct 1-based physical line number and the raw line text,
but an error on a final line not terminated by a newline reuses the
previous count: here the malformed second line ("bogus") and the
malformed unterminated third line ("bad") both report row 2, because
Parser::next increments row_num only when it consumes a newline. -/
theorem parse_error_row_numbers_eval :
    Parser.run (Parser.new (str ("0 0 0:0 / /tmp rw - t s o\nbogus\nbad"))) =
      [.ok ⟨0, 0, 0, 0, str ("/"), str ("/tmp"), str ("rw"), [], str ("t"),
        str ("s"), str ("o")⟩,
       .error ⟨"Cannot parse integer", 2, str ("bogus")⟩,
       .error ⟨"Cannot parse integer", 2, str ("bad")⟩] := by
  decide

/-- Witness for the amended claim C1: two stacked records at /tmp; the
lookup returns the flags of the second (last) one. -/
theorem get_mountpoint_flags_from_last_match_witness :
    get_mountpoint_flags_from
      (str ("0 0 0:0 / /tmp rw - t s o\n1 1 0:1 / /tmp rw,nosuid - t s o\n"))
      (str ("/tmp")) =
      .ok (some (MountPoint.get_flags ⟨1, 1, 0, 1, str ("/"), str ("/tmp"),
        str ("rw,nosuid"), [], str ("t"), str ("s"), str ("o")⟩)) :=
  get_mountpoint_flags_from_last_match _ _
    [⟨0, 0, 0, 0, str ("/"), str ("/tmp"), str ("rw"), [], str ("t"),
      str ("s"), str ("o")⟩,
     ⟨1, 1, 0, 1, str ("/"), str ("/tmp"), str ("rw,nosuid"), [], str ("t"),
      str ("s"), str ("o")⟩]
    _ (by decide) (by decide) (by decide)

/-- Counterexample to claim C1 as stated: in this buffer two records
parse successfully and both mount /tmp (the last with flags nosuid and
nodev, value 2), yet the lookup does not return those flags: the
malformed final line makes it return the wrapped parse error. -/
theorem get_mountpoint_flags_from_abort_cex :
    Parser.run (Parser.new (str
        ("0 0 0:0 / /tmp rw - t s o\n1 1 0:1 / /tmp rw,nosuid - t s o\nbogus"))) =
      [.ok ⟨0, 0, 0, 0, str ("/"), str ("/tmp"), str ("rw"), [], str ("t"),
        str ("s"), str ("o")⟩,
       .ok ⟨1, 1, 0, 1, str ("/"), str ("/tmp"), str ("rw,nosuid"), [],
        str ("t"), str ("s"), str ("o")⟩,
       .error ⟨"Cannot parse integer", 2, str ("bogus")⟩] ∧
    MountPoint.get_flags ⟨1, 1, 0, 1, str ("/"), str ("/tmp"),
      str ("rw,nosuid"), [], str ("t"), str ("s"), str ("o")⟩ = 2 ∧
    get_mountpoint_flags_from (str
        ("0 0 0:0 / /tmp rw - t s o\n1 1 0:1 / /tmp rw,nosuid - t s o\nbogus"))
      (str ("/tmp")) =
      .error ⟨"Cannot parse integer", 2, str ("bogus")⟩ ∧
    (Except.error ⟨"Cannot parse integer", 2, str ("bogus")⟩ :
      Except ParseError (Option Nat)) ≠ .ok (some 2) :=
  ⟨by decide, by decide, by decide, by decide⟩

/-- Witness for claim C9: a clean one-record snapshot without the
target yields UnknownMountPoint with the target path, and a snapshot
with an unparsable line yields a wrapped ParseError. -/
theorem get_mountpoint_flags_pure_errors_witness :
    (get_mountpoint_flags_pure (str ("0 0 0:0 / /tmp rw - t s o"))
        (str ("/xyz")) =
      .error (.UnknownMountPoint (str ("/xyz")))) ∧
    (∃ e, get_mountpoint_flags_pure (str ("bogus")) (str ("/tmp")) =
      .error (.ParseMountInfo e)) := by
  constructor
  · apply (get_mountpoint_flags_pure_errors _ _).1.mpr
    have hrun : Parser.run (Parser.new (str ("0 0 0:0 / /tmp rw - t s o"))) =
        [Except.ok ⟨0, 0, 0, 0, str ("/"), str ("/tmp"), str ("rw"), [],
          str ("t"), str ("s"), str ("o")⟩] := by
      decide
    constructor
    · intro r hr
      rw [hrun] at hr
      simp at hr
      exact ⟨_, hr⟩
    · intro mp hmp
      rw [hrun] at hmp
      simp at hmp
      subst hmp
      decide
  · exact (get_mountpoint_flags_pure_errors _ _).2
      ⟨⟨"Cannot parse integer", 0, str ("bogus")⟩, by decide⟩

end Libmount
